import Mathlib

/-
Shallow embedding of `src/vigenere_bruteforce/src/vigenere_bruteforce.rs`.

Modelling conventions:
* Rust `&str` / `String` values are modelled as `List Char`; the repository's
  ciphertext and keys are ASCII, where Rust's byte length coincides with the
  character count and `to_lowercase` agrees with ASCII lowercasing.
* Rust machine integers (`u8`, `u32`, `usize`, `i32`) are modelled as `Nat`
  (and `Int` where the Rust value is signed).  All arithmetic performed by the
  program on the parameter ranges its orchestrator uses stays far below every
  relevant width, so no wraparound is modelled.
* `BinaryHeap<Result>` is a max-heap ordered by the `Ord` instance on
  `Result`, which compares `score` only.  It is modelled as the list of its
  elements: `push` conses, `peek` returns a maximal-score element and `pop`
  removes it.  Among score ties the element returned by the Rust heap is
  unspecified; the model picks the first maximal-score element, which is
  adequate for the properties proved here (they either concern sizes only or
  use pairwise distinct scores).
* A Rust `panic!` (e.g. `unwrap` on `None`, index out of bounds) is modelled
  by returning `none` from an `Option`-valued function.
-/

/-- Rust `is_ascii_lowercase`. -/
def isAsciiLowercase (c : Char) : Bool := 'a' ≤ c && c ≤ 'z'

/-- Rust `is_ascii_uppercase`. -/
def isAsciiUppercase (c : Char) : Bool := 'A' ≤ c && c ≤ 'Z'

/-- Rust `is_ascii_alphabetic`. -/
def isAsciiAlphabetic (c : Char) : Bool := isAsciiLowercase c || isAsciiUppercase c

/-- Rust `to_ascii_lowercase` on a character. -/
def toAsciiLowercase (c : Char) : Char :=
  if isAsciiUppercase c then Char.ofNat (c.toNat + 32) else c

/-- The `COMMON_WORDS` table (static reference data, lines 7-22 of the source). -/
def COMMON_WORDS : List (List Char) :=
  (["the","and","to","of","in","is","it","you","that","he","was","for","on","are",
    "as","with","his","they","be","at","one","have","this","from","or","had","by",
    "but","not","we","my","so","if","me","your","what","all","can","no","about",
    "have","this","will","your","from","they","would","there","their","which","when",
    "make","like","time","very","when","come","just","know","take","people","year",
    "work","back","call","come","feel","find","give","good","hand","high","keep",
    "last","life","live","make","mean","need","next","open","over","part","play",
    "said","same","seem","such","tell","than","that","them","then","these","they",
    "this","thus","time","very","want","well","were","what","when","will","with",
    "word","work","would","write","years","ancient","library","stood","majestically",
    "hillside","weathered","stone","walls","holding","countless","secrets","within",
    "scholars","across","kingdom","journey","months","access","rare","manuscripts",
    "precious","knowledge","head","librarian","guarded","treasures","fiercely",
    "allowing","dedicated","researchers","study","carefully"] : List String).map
    String.toList

/-- The `FREQ` string of the 12 most frequent English letters (line 24). -/
def FREQ : List Char := "etaoinshrdlu".toList

/-- The `Result` struct (lines 26-33).  Its `Ord` instance compares `score` only. -/
structure Result where
  score : Int
  cipher_type : String
  params : String
  plaintext_preview : String
  plaintext_full : String
deriving DecidableEq

/-- A maximal-score element of the heap, as returned by `BinaryHeap::peek`
(ties resolved towards the earlier list position). -/
def heapPeek : List Result → Option Result
  | [] => none
  | r :: rs =>
    match heapPeek rs with
    | none => some r
    | some m => if r.score ≥ m.score then some r else some m

/-- Removes the first element carrying the given (maximal) score, as removed
by `BinaryHeap::pop`. -/
def removeFirstWithScore (m : Int) : List Result → List Result
  | [] => []
  | r :: rs => if r.score = m then rs else r :: removeFirstWithScore m rs

/-- The `TopN` struct (lines 47-50): a `BinaryHeap<Result>` plus a capacity. -/
structure TopN where
  heap : List Result
  limit : Nat
deriving DecidableEq

/-- `TopN::new` (lines 53-58). -/
def TopN.new (limit : Nat) : TopN := ⟨[], limit⟩

/-- `TopN::insert` (lines 60-67).  When the heap is full the code compares the
new score against `self.heap.peek().unwrap()` — the MAXIMUM of the max-heap —
and on success `pop`s that maximum before pushing.  `none` models the
`unwrap` panic, reachable only when `limit = 0`. -/
def TopN.insert (t : TopN) (result : Result) : Option TopN :=
  if t.heap.length < t.limit then
    some { t with heap := result :: t.heap }
  else
    match heapPeek t.heap with
    | none => none
    | some m =>
      if result.score > m.score then
        some { t with heap := result :: removeFirstWithScore m.score t.heap }
      else
        some t

/-- A sequence of `TopN::insert` calls, propagating a panic as `none`. -/
def TopN.insertMany (t : TopN) (rs : List Result) : Option TopN :=
  rs.foldlM TopN.insert t

-- ========== DICTIONARY VALIDATION ==========

/-- Rust `str::split` on a character predicate: substrings between separator
characters, with empty pieces kept (so that adjacent, leading or trailing
separators contribute empty strings, exactly as in Rust).  `acc` holds the
current piece reversed. -/
def splitNotAlphaGo (acc : List Char) : List Char → List (List Char)
  | [] => [acc.reverse]
  | c :: cs =>
    if isAsciiAlphabetic c then splitNotAlphaGo (c :: acc) cs
    else acc.reverse :: splitNotAlphaGo [] cs

def splitNotAlpha (text : List Char) : List (List Char) :=
  splitNotAlphaGo [] text

/-- The tokenization shared by `is_valid_english` (lines 94-98) and the
word-match loop of `score_english` (lines 417-421): split on non-alphabetic
characters, lowercase, keep tokens of length ≥ 3.  (`is_valid_english` uses
Unicode `to_lowercase` and `score_english` uses `to_ascii_lowercase`; on the
ASCII tokens produced by the alphabetic split these agree.) -/
def tokenize (text : List Char) : List (List Char) :=
  ((splitNotAlpha text).map (List.map toAsciiLowercase)).filter
    (fun w => w.length ≥ 3)

/-- `is_valid_english` (lines 93-106). -/
def is_valid_english (text : List Char) : Int :=
  let words := tokenize text
  if words = [] then 0
  else
    let valid_count := words.countP (fun w => COMMON_WORDS.contains w)
    ((valid_count : Int) * 100) / (words.length : Int)

-- ========== DECRYPTION FUNCTIONS ==========

/-- Per-character closure of `decrypt_caesar` (lines 112-120). -/
def decrypt_caesar_char (shift : Nat) (c : Char) : Char :=
  if isAsciiLowercase c then
    Char.ofNat ((c.toNat - 'a'.toNat + 26 - shift) % 26 + 'a'.toNat)
  else if isAsciiUppercase c then
    Char.ofNat ((c.toNat - 'A'.toNat + 26 - shift) % 26 + 'A'.toNat)
  else c

/-- `decrypt_caesar` (lines 110-122). -/
def decrypt_caesar (text : List Char) (shift : Nat) : List Char :=
  text.map (decrypt_caesar_char shift)

/-- `decrypt_rot13` (lines 124-126). -/
def decrypt_rot13 (text : List Char) : List Char :=
  decrypt_caesar text 13

/-- Per-character closure of `decrypt_atbash` (lines 130-138). -/
def decrypt_atbash_char (c : Char) : Char :=
  if isAsciiLowercase c then
    Char.ofNat ('z'.toNat - (c.toNat - 'a'.toNat))
  else if isAsciiUppercase c then
    Char.ofNat ('Z'.toNat - (c.toNat - 'A'.toNat))
  else c

/-- `decrypt_atbash` (lines 128-140). -/
def decrypt_atbash (text : List Char) : List Char :=
  text.map decrypt_atbash_char

/-- Loop body of `decrypt_vigenere` (lines 146-156): `k` counts the
alphabetic characters consumed so far; `key[k % key.len()]` is in bounds for
a non-empty key, so the `getD` default is never used then (an empty key
panics in Rust at the `%` by zero / indexing). -/
def decrypt_vigenere_go (key : List Nat) (k : Nat) : List Char → List Char
  | [] => []
  | c :: cs =>
    if isAsciiAlphabetic c then
      let shift := key.getD (k % key.length) 0
      let base := if isAsciiLowercase c then 'a'.toNat else 'A'.toNat
      Char.ofNat ((c.toNat - base + 26 - shift) % 26 + base) ::
        decrypt_vigenere_go key (k + 1) cs
    else
      c :: decrypt_vigenere_go key k cs

/-- `decrypt_vigenere` (lines 142-159). -/
def decrypt_vigenere (text : List Char) (key : List Nat) : List Char :=
  decrypt_vigenere_go key 0 text

/-- Appends `i` to row `rail` of the fence (Rust `fence[rail].push(i)`). -/
def fencePush (fence : List (List Nat)) (rail : Nat) (i : Nat) : List (List Nat) :=
  fence.set rail (fence.getD rail [] ++ [i])

/-- The zig-zag loop of `decrypt_rail_fence` (lines 172-180), iterating `i`
from `n - remaining` to `n - 1`. -/
def railFenceLoop (rails : Nat) :
    Nat → Nat → Nat → Int → List (List Nat) → List (List Nat)
  | 0, _, _, _, fence => fence
  | remaining + 1, i, rail, direction, fence =>
    let fence := fencePush fence rail i
    let direction : Int :=
      if rail = 0 then 1
      else if rail = rails - 1 then -1
      else direction
    railFenceLoop rails remaining (i + 1) ((rail : Int) + direction).toNat
      direction fence

/-- The scatter loop of `decrypt_rail_fence` (lines 182-192): write the
ciphertext characters, in order, to the positions listed rail by rail. -/
def railScatter : List Nat → List Char → List Char → List Char
  | [], _, result => result
  | _ :: _, [], result => result
  | pos :: rest, c :: cs, result => railScatter rest cs (result.set pos c)

/-- `decrypt_rail_fence` (lines 161-195). -/
def decrypt_rail_fence (text : List Char) (rails : Nat) : List Char :=
  if rails ≤ 1 then text
  else
    let n := text.length
    let fence := railFenceLoop rails n 0 0 1 (List.replicate rails [])
    railScatter fence.flatten text (List.replicate n '?')

/-- Extended-Euclid loop of `mod_inverse` (the Rust `while a > 1` loop,
lines 223-232).  `fuel` bounds the number of iterations; it is instantiated
with `a + m + 1`, which exceeds the number of steps the Euclidean descent
`(a, m) → (m, a % m)` can take before `a ≤ 1`. -/
def mod_inverse_go (fuel : Nat) (a m : Nat) (x0 x1 : Int) : Int :=
  match fuel with
  | 0 => x1
  | fuel + 1 =>
    if a > 1 then
      mod_inverse_go fuel m (a % m) (x1 - (a / m : Nat) * x0) x0
    else x1

/-- `mod_inverse` (lines 215-239). -/
def mod_inverse (a m : Nat) : Nat :=
  let m0 := m
  if m = 1 then 0
  else
    let x1 := mod_inverse_go (a + m + 1) a m 0 1
    (if x1 < 0 then x1 + m0 else x1).toNat

/-- Per-character closure of `decrypt_affine` (lines 199-211): it computes
`y = (modinv(a, 26) * (x + b)) % 26`. -/
def decrypt_affine_char (a b : Nat) (c : Char) : Char :=
  if isAsciiLowercase c then
    let x := c.toNat - 'a'.toNat
    let y := (mod_inverse a 26 * (x + b)) % 26
    Char.ofNat ('a'.toNat + y)
  else if isAsciiUppercase c then
    let x := c.toNat - 'A'.toNat
    let y := (mod_inverse a 26 * (x + b)) % 26
    Char.ofNat ('A'.toNat + y)
  else c

/-- `decrypt_affine` (lines 197-213). -/
def decrypt_affine (text : List Char) (a b : Nat) : List Char :=
  text.map (decrypt_affine_char a b)

/-- Modelled from the spec: the repository has no `encrypt_affine`; the spec
defines encryption as "the forward affine transform" `y = (a*x + b) mod 26`
applied per letter, case-preserving, non-alphabetic characters unchanged. -/
def encrypt_affine_char (a b : Nat) (c : Char) : Char :=
  if isAsciiLowercase c then
    let x := c.toNat - 'a'.toNat
    Char.ofNat ('a'.toNat + (a * x + b) % 26)
  else if isAsciiUppercase c then
    let x := c.toNat - 'A'.toNat
    Char.ofNat ('A'.toNat + (a * x + b) % 26)
  else c

/-- Modelled from the spec: forward affine encryption over a whole text. -/
def encrypt_affine (text : List Char) (a b : Nat) : List Char :=
  text.map (encrypt_affine_char a b)

/-- Loop body of `decrypt_beaufort` (lines 245-255), analogous to
`decrypt_vigenere_go`. -/
def decrypt_beaufort_go (key : List Nat) (k : Nat) : List Char → List Char
  | [] => []
  | c :: cs =>
    if isAsciiAlphabetic c then
      let shift := key.getD (k % key.length) 0
      let base := if isAsciiLowercase c then 'a'.toNat else 'A'.toNat
      Char.ofNat ((shift + 26 - (c.toNat - base)) % 26 + base) ::
        decrypt_beaufort_go key (k + 1) cs
    else
      c :: decrypt_beaufort_go key k cs

/-- `decrypt_beaufort` (lines 241-258). -/
def decrypt_beaufort (text : List Char) (key : List Nat) : List Char :=
  decrypt_beaufort_go key 0 text

/-- Write loop of `decrypt_columnar_transposition` (lines 271-279): walk the
positions `row * cols + original_pos` in sorted-column order; whenever the
position is within the text (and ciphertext characters remain), place the
next ciphertext character there.  `read_idx` advances only on a successful
assignment, exactly as in the Rust loop, where the increment sits inside the
bounds check. -/
def columnarScatter (n : Nat) : List Nat → List Char → List Char → List Char
  | [], _, result => result
  | _ :: rest, [], result => columnarScatter n rest [] result
  | pos :: rest, c :: cs, result =>
    if pos < n then columnarScatter n rest cs (result.set pos c)
    else columnarScatter n rest (c :: cs) result

/-- Sorted insertion placing `x` after every already-placed element that
compares `≤ x`, so elements inserted earlier stay first among ties. -/
def orderedInsert {α : Type} (le : α → α → Bool) (x : α) : List α → List α
  | [] => [x]
  | y :: ys => if le y x then y :: orderedInsert le x ys else x :: y :: ys

/-- Stable insertion sort: elements are inserted in their original order,
each after the ties already present.  For a total comparator every stable
sort produces the same list, so this computes exactly what Rust's stable
`sort_by_key` computes. -/
def stableSortBy {α : Type} (le : α → α → Bool) (l : List α) : List α :=
  l.foldl (fun acc x => orderedInsert le x acc) []

/-- `decrypt_columnar_transposition` (lines 260-282).  `sort_by_key` is
Rust's stable sort keyed by `key.chars().nth(i).unwrap()`, modelled by
`stableSortBy`; the `getD` default is never consulted because every sorted
index is below `key.length`.  An empty key makes the Rust code panic
(division by zero computing `rows`), so theorems about this function assume
a non-empty key. -/
def decrypt_columnar_transposition (text key : List Char) : List Char :=
  let cols := key.length
  let rows := (text.length + cols - 1) / cols
  let key_indices :=
    stableSortBy (fun i j => key.getD i ' ' ≤ key.getD j ' ') (List.range cols)
  let positions :=
    key_indices.flatMap fun p => (List.range rows).map fun row => row * cols + p
  columnarScatter text.length positions text (List.replicate text.length '?')

/-- The 25 letters `'a'..='z'` with `'j'` excluded never appearing is handled
by the filters below; this is the plain range `'a'..='z'` of the fill loop
(lines 296-300). -/
def alphabetChars : List Char :=
  (List.range 26).map fun i => Char.ofNat ('a'.toNat + i)

/-- Dedup phase of the Playfair key table (lines 289-294): keep the first
occurrence of each ASCII-alphabetic character.  `seen` is the `HashSet` of
characters already pushed. -/
def dedupAlphaGo (seen : List Char) : List Char → List Char
  | [] => []
  | c :: cs =>
    if isAsciiAlphabetic c && !(seen.contains c) then
      c :: dedupAlphaGo (c :: seen) cs
    else
      dedupAlphaGo seen cs

/-- Playfair key table (lines 285-300): lowercased key with `j → i`,
deduplicated, followed by the remaining letters of the alphabet except `j`. -/
def playfair_keytable (key : List Char) : List Char :=
  let key_lower := (key.map toAsciiLowercase).map fun c => if c = 'j' then 'i' else c
  let kd := dedupAlphaGo [] key_lower
  kd ++ alphabetChars.filter (fun c => c ≠ 'j' && !(kd.contains c))

/-- Digraph loop of `decrypt_playfair` (lines 308-336).  `kt.getD idx '?'`
models `keytable.chars().nth(idx).unwrap()`; the key table always has 25
characters (proved below), so the index `row * 5 + col` with `row = pos / 5`,
`col < 5`, `pos < 25` stays in bounds and the default is unreachable. -/
def playfair_pairs (kt : List Char) : List Char → List Char
  | c1 :: c2 :: rest =>
    let pos1 := (kt.findIdx? (· = c1)).getD 0
    let pos2 := (kt.findIdx? (· = c2)).getD 0
    let row1 := pos1 / 5
    let col1 := pos1 % 5
    let row2 := pos2 / 5
    let col2 := pos2 % 5
    (if row1 = row2 then
      [kt.getD (row1 * 5 + (col1 + 4) % 5) '?', kt.getD (row2 * 5 + (col2 + 4) % 5) '?']
    else if col1 = col2 then
      [kt.getD ((row1 + 4) % 5 * 5 + col1) '?', kt.getD ((row2 + 4) % 5 * 5 + col2) '?']
    else
      [kt.getD (row1 * 5 + col2) '?', kt.getD (row2 * 5 + col1) '?']) ++
      playfair_pairs kt rest
  | _ => []

/-- `decrypt_playfair` (lines 284-339). -/
def decrypt_playfair (text key : List Char) : List Char :=
  let keytable := playfair_keytable key
  let clean_text := (text.filter isAsciiAlphabetic).map fun c =>
    if toAsciiLowercase c = 'j' then 'i' else toAsciiLowercase c
  playfair_pairs keytable clean_text

/-- Digit-pair loop of `decrypt_polybius_square` (lines 346-360). -/
def polybius_pairs (poly : List Char) : List Char → List Char
  | c1 :: c2 :: rest =>
    (if ("12345".toList.contains c1 && "12345".toList.contains c2) then
      let row := ("12345".toList.findIdx? (· = c1)).getD 0
      let col := ("12345".toList.findIdx? (· = c2)).getD 0
      let idx := row * 5 + col
      if idx < poly.length then [poly.getD idx '?'] else []
    else []) ++ polybius_pairs poly rest
  | _ => []

/-- `decrypt_polybius_square` (lines 341-363). -/
def decrypt_polybius_square (text : List Char) : List Char :=
  let polybius := "abcdefghiklmnopqrstuvwxyz".toList
  let clean_text := text.filter (fun c => c ≠ ' ')
  polybius_pairs polybius clean_text

/-- The `bacon_map` table (lines 366-373). -/
def bacon_map : List (Char × List Char) :=
  [('a', "aaaaa".toList), ('b', "aaaab".toList), ('c', "aaaba".toList),
   ('d', "aaabb".toList), ('e', "aabaa".toList), ('f', "aabab".toList),
   ('g', "aabba".toList), ('h', "aabbb".toList), ('i', "abaaa".toList),
   ('j', "abaab".toList), ('k', "ababa".toList), ('l', "ababb".toList),
   ('m', "abbaa".toList), ('n', "abbab".toList), ('o', "abbba".toList),
   ('p', "abbbb".toList), ('q', "baaaa".toList), ('r', "baaab".toList),
   ('s', "baaba".toList), ('t', "baabb".toList), ('u', "babaa".toList),
   ('v', "babab".toList), ('w', "babba".toList), ('x', "babbb".toList),
   ('y', "bbaaa".toList), ('z', "bbaab".toList)]

/-- Chunk loop of `decrypt_bacon` (lines 378-388): 5-character chunks, each
decoded by exact match against `bacon_map`; a trailing chunk shorter than 5
is dropped. -/
def decrypt_bacon_go : List Char → List Char
  | c1 :: c2 :: c3 :: c4 :: c5 :: rest =>
    (match bacon_map.find? (fun p => p.2 = [c1, c2, c3, c4, c5]) with
     | some p => [p.1]
     | none => []) ++ decrypt_bacon_go rest
  | _ => []

/-- `decrypt_bacon` (lines 365-391). -/
def decrypt_bacon (text : List Char) : List Char :=
  decrypt_bacon_go (text.filter isAsciiAlphabetic)

/-- `decrypt_reverse` (lines 393-395). -/
def decrypt_reverse (text : List Char) : List Char :=
  text.reverse

/-- `decrypt_atbash_vigenere` (lines 397-400). -/
def decrypt_atbash_vigenere (text : List Char) (key : List Nat) : List Char :=
  decrypt_vigenere (decrypt_atbash text) key

-- ========== SCORING FUNCTION ==========

/-- Letter-frequency component of `score_english` (lines 405-415): for each
letter of `FREQ`, the number of its (case-insensitive) occurrences among the
alphabetic characters of the text; the `HashMap` of counts is modelled by
`List.count` directly. -/
def letter_freq_score (text : List Char) : Int :=
  (FREQ.map fun f =>
    ((((text.filter isAsciiAlphabetic).map toAsciiLowercase).count f : Int))).sum

/-- `score_english` (lines 404-432): frequency score, plus 10 per token found
in `COMMON_WORDS`, plus twice the `is_valid_english` percentage. -/
def score_english (text : List Char) : Int :=
  let score := letter_freq_score text
  let score := score + 10 * ((tokenize text).countP (fun w => COMMON_WORDS.contains w) : Int)
  let dict_score := is_valid_english text
  score + dict_score * 2

-- ========== ORCHESTRATOR KEY ENUMERATION ==========

/-- Key generated at ordinal `i` by the brute-force loops of
`crack_specific_cipher` (lines 496-501, identically 537-542 and 598-603):
`key[j] = n % 26; n /= 26` for `j` from `len - 1` down to `0`, i.e. the
base-26 digits of `i`, most significant first. -/
def keyOf : Nat → Nat → List Nat
  | 0, _ => []
  | l + 1, i => keyOf l (i / 26) ++ [i % 26]

/-- Ordinal of a key: its value read as a base-26 numeral, most significant
digit first (the inverse of `keyOf`, used to state the enumeration claim). -/
def valOf (ks : List Nat) : Nat :=
  ks.foldl (fun acc d => acc * 26 + d) 0

/-- The `coprime_a` list of the affine search (line 521). -/
def coprime_a : List Nat := [1, 3, 5, 7, 9, 11, 15, 17, 19, 21, 23, 25]

-- ========== CHARACTER BRIDGE LEMMAS ==========

theorem isAsciiLowercase_iff (c : Char) :
    isAsciiLowercase c = true ↔ 97 ≤ c.toNat ∧ c.toNat ≤ 122 := by
  simp [isAsciiLowercase, Char.le_def, UInt32.le_def, BitVec.le_def, Char.toNat,
    UInt32.toNat]

theorem isAsciiUppercase_iff (c : Char) :
    isAsciiUppercase c = true ↔ 65 ≤ c.toNat ∧ c.toNat ≤ 90 := by
  simp [isAsciiUppercase, Char.le_def, UInt32.le_def, BitVec.le_def, Char.toNat,
    UInt32.toNat]

theorem lowerChar_facts : ∀ y < 26, (Char.ofNat (97 + y)).toNat = 97 + y ∧
    isAsciiLowercase (Char.ofNat (97 + y)) = true ∧
    isAsciiUppercase (Char.ofNat (97 + y)) = false ∧
    isAsciiAlphabetic (Char.ofNat (97 + y)) = true := by decide

theorem upperChar_facts : ∀ y < 26, (Char.ofNat (65 + y)).toNat = 65 + y ∧
    isAsciiUppercase (Char.ofNat (65 + y)) = true ∧
    isAsciiLowercase (Char.ofNat (65 + y)) = false ∧
    isAsciiAlphabetic (Char.ofNat (65 + y)) = true := by decide

theorem toNat_a : 'a'.toNat = 97 := rfl

theorem toNat_A : 'A'.toNat = 65 := rfl

-- ========== C6: mod_inverse ==========

/-- C6: `coprime_a` is exactly the set of integers in `[1, 25]` coprime to 26,
and for every `a` in it, `mod_inverse a 26` is the modular multiplicative
inverse of `a` modulo 26 and is `< 26`. -/
theorem mod_inverse_coprime_a_correct :
    (∀ a, a ∈ coprime_a ↔ (1 ≤ a ∧ a ≤ 25 ∧ Nat.gcd a 26 = 1)) ∧
    (∀ a ∈ coprime_a, (mod_inverse a 26 * a) % 26 = 1 ∧ mod_inverse a 26 < 26) := by
  constructor
  · intro a
    constructor
    · intro h; fin_cases h <;> simp
    · rintro ⟨h1, h2, h3⟩
      interval_cases a <;> simp_all <;> decide
  · decide

/-- C6 witness: the theorem applied at the concrete value `a = 3`. -/
theorem mod_inverse_coprime_a_correct_witness :
    (mod_inverse 3 26 * 3) % 26 = 1 ∧ mod_inverse 3 26 < 26 :=
  mod_inverse_coprime_a_correct.2 3 (by decide)

-- ========== C2: affine round-trip ==========

theorem affine_roundtrip_core : ∀ a < 26, Nat.gcd a 26 = 1 → ∀ b < 26, ∀ x < 26,
    (mod_inverse a 26 * ((a * x + b) % 26 + (26 - b) % 26)) % 26 = x := by decide

theorem affine_char_roundtrip (a b : Nat) (ha : a < 26) (hg : Nat.gcd a 26 = 1)
    (hb : b < 26) (c : Char) :
    decrypt_affine_char a ((26 - b) % 26) (encrypt_affine_char a b c) = c := by
  by_cases hl : isAsciiLowercase c = true
  · obtain ⟨h1, h2⟩ := (isAsciiLowercase_iff c).mp hl
    have hy : (a * (c.toNat - 97) + b) % 26 < 26 := Nat.mod_lt _ (by norm_num)
    obtain ⟨e1, e2, e3, _⟩ := lowerChar_facts _ hy
    have hx : c.toNat - 97 < 26 := by omega
    simp only [encrypt_affine_char, decrypt_affine_char, hl, if_true, toNat_a, e1,
      e2, e3, Nat.add_sub_cancel_left]
    rw [affine_roundtrip_core a ha hg b hb _ hx, Nat.add_sub_cancel' h1,
      Char.ofNat_toNat]
  · by_cases hu : isAsciiUppercase c = true
    · obtain ⟨h1, h2⟩ := (isAsciiUppercase_iff c).mp hu
      have hy : (a * (c.toNat - 65) + b) % 26 < 26 := Nat.mod_lt _ (by norm_num)
      obtain ⟨e1, e2, e3, _⟩ := upperChar_facts _ hy
      have hx : c.toNat - 65 < 26 := by omega
      simp only [encrypt_affine_char, decrypt_affine_char, hl, hu, if_true,
        Bool.false_eq_true, if_false, toNat_A, e1, e2, e3, Nat.add_sub_cancel_left]
      rw [affine_roundtrip_core a ha hg b hb _ hx, Nat.add_sub_cancel' h1,
        Char.ofNat_toNat]
    · simp only [encrypt_affine_char, decrypt_affine_char, hl, hu,
        Bool.false_eq_true, if_false]

theorem list_map_id_of {α : Type} (f : α → α) (h : ∀ a, f a = a) :
    ∀ l : List α, l.map f = l := by
  intro l; induction l with
  | nil => rfl
  | cons c cs ih => simp [h, ih]

/-- C2 counterexample: the claim as stated fails at `a = 1`, `b = 1`,
`text = "a"`: encryption sends `'a'` to `'b'`, but `decrypt_affine` computes
`modinv(a)·(x + b)` rather than `modinv(a)·(x − b)` and returns `"c"`. -/
theorem decrypt_affine_encrypt_affine_cex :
    decrypt_affine (encrypt_affine ['a'] 1 1) 1 1 ≠ ['a'] := by decide

/-- C2 amended: for every `a < 26` coprime to 26 and `b < 26`,
`decrypt_affine` applied with offset `(26 - b) % 26` inverts the spec's
forward affine transform with offset `b` (the code's decryption corresponds
to the negated offset). -/
theorem decrypt_affine_encrypt_affine_amended (text : List Char) (a b : Nat)
    (ha : a < 26) (hg : Nat.gcd a 26 = 1) (hb : b < 26) :
    decrypt_affine (encrypt_affine text a b) a ((26 - b) % 26) = text := by
  unfold decrypt_affine encrypt_affine
  rw [List.map_map]
  exact list_map_id_of _ (fun c => affine_char_roundtrip a b ha hg hb c) text

/-- C2 witness: the amended theorem at `a = 3`, `b = 7`, `text = "Hello, world!"`. -/
theorem decrypt_affine_encrypt_affine_amended_witness :
    decrypt_affine (encrypt_affine "Hello, world!".toList 3 7) 3 ((26 - 7) % 26) =
      "Hello, world!".toList :=
  decrypt_affine_encrypt_affine_amended "Hello, world!".toList 3 7 (by decide)
    (by decide) (by decide)

-- ========== C7: Beaufort self-reciprocal ==========

theorem lowerChar_facts_r : ∀ y < 26, (Char.ofNat (y + 97)).toNat = y + 97 ∧
    isAsciiLowercase (Char.ofNat (y + 97)) = true ∧
    isAsciiUppercase (Char.ofNat (y + 97)) = false ∧
    isAsciiAlphabetic (Char.ofNat (y + 97)) = true := by decide

theorem upperChar_facts_r : ∀ y < 26, (Char.ofNat (y + 65)).toNat = y + 65 ∧
    isAsciiUppercase (Char.ofNat (y + 65)) = true ∧
    isAsciiLowercase (Char.ofNat (y + 65)) = false ∧
    isAsciiAlphabetic (Char.ofNat (y + 65)) = true := by decide

theorem getD_mem_of_lt {l : List Nat} {n : Nat} (h : n < l.length) :
    l.getD n 0 ∈ l := by
  rw [List.getD_eq_getElem?_getD, List.getElem?_eq_getElem h]
  exact List.getElem_mem h

theorem beaufort_core (s x : Nat) (hs : s < 26) (hx : x < 26) :
    (s + 26 - (s + 26 - x) % 26) % 26 = x := by omega

theorem beaufort_go_involutive (key : List Nat) (hk : key ≠ [])
    (hlt : ∀ s ∈ key, s < 26) (text : List Char) :
    ∀ k : Nat, decrypt_beaufort_go key k (decrypt_beaufort_go key k text) = text := by
  induction text with
  | nil => intro k; rfl
  | cons c cs ih =>
    intro k
    have hklen : 0 < key.length := List.length_pos.mpr hk
    have hidx : k % key.length < key.length := Nat.mod_lt _ hklen
    have hs : key.getD (k % key.length) 0 < 26 := hlt _ (getD_mem_of_lt hidx)
    by_cases hc : isAsciiAlphabetic c = true
    · by_cases hl : isAsciiLowercase c = true
      · obtain ⟨h1, h2⟩ := (isAsciiLowercase_iff c).mp hl
        have hv : (key.getD (k % key.length) 0 + 26 - (c.toNat - 97)) % 26 < 26 :=
          Nat.mod_lt _ (by norm_num)
        obtain ⟨e1, e2, e3, e4⟩ := lowerChar_facts_r _ hv
        simp only [decrypt_beaufort_go, hc, if_true, hl, toNat_a, e1, e2, e4,
          Nat.add_sub_cancel, ih]
        rw [beaufort_core _ _ hs (by omega), Nat.sub_add_cancel h1, Char.ofNat_toNat]
      · have hu : isAsciiUppercase c = true := by
          simp only [isAsciiAlphabetic, Bool.or_eq_true] at hc
          tauto
        obtain ⟨h1, h2⟩ := (isAsciiUppercase_iff c).mp hu
        have hv : (key.getD (k % key.length) 0 + 26 - (c.toNat - 65)) % 26 < 26 :=
          Nat.mod_lt _ (by norm_num)
        obtain ⟨e1, e2, e3, e4⟩ := upperChar_facts_r _ hv
        simp only [decrypt_beaufort_go, hc, if_true, hl, Bool.false_eq_true, if_false,
          toNat_A, e1, e2, e3, e4, Nat.add_sub_cancel, ih]
        rw [beaufort_core _ _ hs (by omega), Nat.sub_add_cancel h1, Char.ofNat_toNat]
    · simp only [Bool.not_eq_true] at hc
      simp only [decrypt_beaufort_go, hc, Bool.false_eq_true, if_false, ih]

/-- C7: `decrypt_beaufort` is self-reciprocal: for every non-empty key with
shifts in `[0, 25]` and every text, applying it twice returns the text. -/
theorem decrypt_beaufort_self_reciprocal (text : List Char) (key : List Nat)
    (hk : key ≠ []) (hlt : ∀ s ∈ key, s < 26) :
    decrypt_beaufort (decrypt_beaufort text key) key = text :=
  beaufort_go_involutive key hk hlt text 0

/-- C7 witness: the theorem at `key = [1, 3]`, `text = "Hi there!"`. -/
theorem decrypt_beaufort_self_reciprocal_witness :
    decrypt_beaufort (decrypt_beaufort "Hi there!".toList [1, 3]) [1, 3] =
      "Hi there!".toList :=
  decrypt_beaufort_self_reciprocal "Hi there!".toList [1, 3] (by decide) (by decide)

-- ========== C9: rail fence with rails <= 1 ==========

/-- C9: `decrypt_rail_fence` returns the input unchanged for `rails ≤ 1`
(values below the spec's stated minimum of 2), rather than failing. -/
theorem decrypt_rail_fence_le_one (text : List Char) (rails : Nat)
    (h : rails ≤ 1) : decrypt_rail_fence text rails = text := by
  unfold decrypt_rail_fence
  rw [if_pos h]

/-- C9 witness: the theorem at `rails = 1` and `rails = 0` on a concrete text. -/
theorem decrypt_rail_fence_le_one_witness :
    decrypt_rail_fence "hello world".toList 1 = "hello world".toList ∧
    decrypt_rail_fence "hello world".toList 0 = "hello world".toList :=
  ⟨decrypt_rail_fence_le_one "hello world".toList 1 (by decide),
   decrypt_rail_fence_le_one "hello world".toList 0 (by decide)⟩

-- ========== C5: scorer on token-free text ==========

/-- C5: when the tokenization yields no tokens (in particular on empty or
all-non-alphabetic text) `is_valid_english` returns 0 without dividing, and
the score reduces to the letter-frequency component alone (word bonus and
dictionary-validity term are both 0). -/
theorem scorer_no_tokens (text : List Char) (h : tokenize text = []) :
    is_valid_english text = 0 ∧ score_english text = letter_freq_score text := by
  refine ⟨?_, ?_⟩
  · unfold is_valid_english
    simp [h]
  · unfold score_english is_valid_english
    simp [h]

/-- C5 witness: the theorem at the all-non-alphabetic text `"?! ab"` (its only
alphabetic run is shorter than 3 characters, so there are no tokens). -/
theorem scorer_no_tokens_witness :
    is_valid_english "?! ab".toList = 0 ∧
    score_english "?! ab".toList = letter_freq_score "?! ab".toList :=
  scorer_no_tokens "?! ab".toList (by decide)

-- ========== C4 and C1: the TopN selector ==========

theorem heapPeek_mem {l : List Result} {m : Result} (h : heapPeek l = some m) :
    m ∈ l := by
  induction l with
  | nil => simp [heapPeek] at h
  | cons r rs ih =>
    unfold heapPeek at h
    cases hr : heapPeek rs with
    | none =>
      simp only [hr] at h
      cases h
      exact List.mem_cons_self _ _
    | some m' =>
      simp only [hr] at h
      by_cases hge : r.score ≥ m'.score
      · rw [if_pos hge] at h; cases h; exact List.mem_cons_self _ _
      · rw [if_neg hge] at h; cases h; exact List.mem_cons_of_mem _ (ih hr)

theorem removeFirstWithScore_length {l : List Result} {m : Result} (hm : m ∈ l)
    (hs : m.score = s) : (removeFirstWithScore s l).length + 1 = l.length := by
  induction l with
  | nil => cases hm
  | cons r rs ih =>
    unfold removeFirstWithScore
    by_cases hr : r.score = s
    · rw [if_pos hr]; rfl
    · rw [if_neg hr]
      have : m ∈ rs := by
        cases List.mem_cons.mp hm with
        | inl he => exact absurd (he ▸ hs) hr
        | inr h => exact h
      simp [ih this]

theorem TopN.insert_size {t t' : TopN} {r : Result} (h : t.heap.length ≤ t.limit)
    (hi : t.insert r = some t') : t'.heap.length ≤ t'.limit ∧ t'.limit = t.limit := by
  unfold TopN.insert at hi
  by_cases hlen : t.heap.length < t.limit
  · rw [if_pos hlen] at hi
    cases hi
    exact ⟨hlen, rfl⟩
  · rw [if_neg hlen] at hi
    cases hpk : heapPeek t.heap with
    | none => simp only [hpk] at hi; exact Option.noConfusion hi
    | some m =>
      simp only [hpk] at hi
      by_cases hgt : r.score > m.score
      · rw [if_pos hgt] at hi
        cases hi
        refine ⟨?_, rfl⟩
        have := removeFirstWithScore_length (heapPeek_mem hpk) rfl
        simp only [List.length_cons]
        omega
      · rw [if_neg hgt] at hi
        cases hi
        exact ⟨h, rfl⟩

theorem TopN.insertMany_size :
    ∀ (rs : List Result) (t t' : TopN), t.heap.length ≤ t.limit →
      TopN.insertMany t rs = some t' →
      t'.heap.length ≤ t'.limit ∧ t'.limit = t.limit := by
  intro rs
  induction rs with
  | nil =>
    intro t t' h hm
    cases hm
    exact ⟨h, rfl⟩
  | cons r rs ih =>
    intro t t' h hm
    unfold TopN.insertMany at hm
    rw [List.foldlM_cons] at hm
    cases hstep : t.insert r with
    | none =>
      simp only [hstep, Option.bind_eq_bind, Option.none_bind] at hm
      exact Option.noConfusion hm
    | some t1 =>
      simp only [hstep, Option.bind_eq_bind, Option.some_bind] at hm
      have h1 := TopN.insert_size h hstep
      have h2 := ih t1 t' h1.1 hm
      exact ⟨h2.1, h2.2.trans h1.2⟩

/-- C4: after any sequence of inserts into a `TopN` of capacity `K` (none of
which panics), the selector holds at most `K` candidates; since every prefix
of the sequence is itself such a sequence, the bound holds after each insert. -/
theorem topn_size_bound (K : Nat) (rs : List Result) (t' : TopN)
    (h : TopN.insertMany (TopN.new K) rs = some t') : t'.heap.length ≤ K := by
  have hs := TopN.insertMany_size rs (TopN.new K) t' (by simp [TopN.new]) h
  have hK : t'.limit = K := hs.2
  exact hK ▸ hs.1

/-- Candidate with a given score and empty text fields (scores are all that
the selector's ordering consults). -/
def mkR (s : Int) : Result :=
  ⟨s, "", "", "", ""⟩

/-- C4 witness: the theorem at `K = 1` and inserts of scores 5 then 7
(the second insert evicts, leaving exactly the one candidate of score 7). -/
theorem topn_size_bound_witness : (TopN.mk [mkR 7] 1).heap.length ≤ 1 :=
  topn_size_bound 1 [mkR 5, mkR 7] (TopN.mk [mkR 7] 1) (by decide)

/-- C1: evaluation of the embedded `TopN::insert` exhibiting the defect.  With
capacity `K = 2` and inserts of scores 1, 2, 3, the selector ends up holding
the scores `[3, 1]`: `BinaryHeap` is a max-heap, so `peek`/`pop` return the
MAXIMUM-scored candidate; the insert of score 3 therefore evicted the held
maximum (score 2) instead of the held minimum (score 1).  The discarded score
2 exceeds the retained score 1, violating the spec's invariant that every
held score is ≥ every evicted score (a top-K selector must hold `[3, 2]`
here, which requires a min-ordered comparison, e.g. `Reverse` in Rust). -/
theorem topn_insert_evicts_maximum :
    (TopN.insertMany (TopN.new 2) [mkR 1, mkR 2, mkR 3]).map
      (fun t => t.heap.map Result.score) = some [3, 1] := by decide

-- ========== C8: mixed-radix key enumeration ==========

theorem keyOf_length : ∀ L i : Nat, (keyOf L i).length = L := by
  intro L
  induction L with
  | zero => intro i; rfl
  | succ l ih => intro i; simp [keyOf, ih]

theorem keyOf_lt : ∀ L i : Nat, ∀ x ∈ keyOf L i, x < 26 := by
  intro L
  induction L with
  | zero => intro i x hx; simp [keyOf] at hx
  | succ l ih =>
    intro i x hx
    simp only [keyOf, List.mem_append, List.mem_singleton] at hx
    cases hx with
    | inl h => exact ih _ x h
    | inr h => omega
  
theorem valOf_append (ys : List Nat) (y : Nat) :
    valOf (ys ++ [y]) = valOf ys * 26 + y := by
  simp [valOf, List.foldl_append]

theorem valOf_keyOf : ∀ L i : Nat, i < 26 ^ L → valOf (keyOf L i) = i := by
  intro L
  induction L with
  | zero =>
    intro i h
    simp only [pow_zero, Nat.lt_one_iff] at h
    subst h
    rfl
  | succ l ih =>
    intro i h
    have hdiv : i / 26 < 26 ^ l := by
      rw [Nat.div_lt_iff_lt_mul (by norm_num : 0 < 26)]
      rw [pow_succ] at h
      exact h
    rw [keyOf, valOf_append, ih _ hdiv]
    omega

theorem keyOf_valOf : ∀ ks : List Nat, (∀ x ∈ ks, x < 26) →
    keyOf ks.length (valOf ks) = ks := by
  intro ks
  induction ks using List.reverseRecOn with
  | nil => intro _; rfl
  | append_singleton ys y ih =>
    intro hx
    have hy : y < 26 := hx y (by simp)
    have hys : ∀ x ∈ ys, x < 26 := fun x h => hx x (by simp [h])
    have hlen : (ys ++ [y]).length = ys.length + 1 := by simp
    rw [valOf_append, hlen, keyOf]
    have h1 : (valOf ys * 26 + y) / 26 = valOf ys := by omega
    have h2 : (valOf ys * 26 + y) % 26 = y := by omega
    rw [h1, h2, ih hys]

theorem valOf_lt : ∀ ks : List Nat, (∀ x ∈ ks, x < 26) →
    valOf ks < 26 ^ ks.length := by
  intro ks
  induction ks using List.reverseRecOn with
  | nil => intro _; simp [valOf]
  | append_singleton ys y ih =>
    intro hx
    have hy : y < 26 := hx y (by simp)
    have hys : ∀ x ∈ ys, x < 26 := fun x h => hx x (by simp [h])
    have h1 := ih hys
    have hlen : (ys ++ [y]).length = ys.length + 1 := by simp
    rw [valOf_append, hlen, pow_succ]
    have h2 : (valOf ys + 1) * 26 ≤ 26 ^ ys.length * 26 :=
      Nat.mul_le_mul_right _ h1
    omega

/-- C8: for each key length `L` (the loops use `1 ≤ L ≤ 5`), the brute-force
key generation visits every element of `[0,25]^L` exactly once: the key at
ordinal `i` is the base-26 digit expansion of `i`, most significant digit
first (`valOf (keyOf L i) = i` where `valOf` reads MSD-first base-26), has
length `L` and digits `< 26`; conversely every such key arises from exactly
one ordinal below `26^L`. -/
theorem vigenere_key_enumeration (L : Nat) (hL1 : 1 ≤ L) (hL5 : L ≤ 5) :
    (∀ i < 26 ^ L, (keyOf L i).length = L ∧ (∀ x ∈ keyOf L i, x < 26) ∧
      valOf (keyOf L i) = i) ∧
    (∀ ks : List Nat, ks.length = L → (∀ x ∈ ks, x < 26) →
      ∃! i, i < 26 ^ L ∧ keyOf L i = ks) := by
  constructor
  · intro i hi
    exact ⟨keyOf_length L i, keyOf_lt L i, valOf_keyOf L i hi⟩
  · intro ks hlen hx
    refine ⟨valOf ks, ⟨?_, ?_⟩, ?_⟩
    · have := valOf_lt ks hx
      rw [hlen] at this
      exact this
    · have := keyOf_valOf ks hx
      rw [hlen] at this
      exact this
    · rintro j ⟨hj, hkey⟩
      have h := valOf_keyOf L j hj
      rw [hkey] at h
      exact h.symm

/-- C8 witness: the theorem at `L = 2` and the key `[3, 4]` (which is the key
generated at ordinal `3 * 26 + 4 = 82`). -/
theorem vigenere_key_enumeration_witness :
    ∃! i, i < 26 ^ 2 ∧ keyOf 2 i = [3, 4] :=
  (vigenere_key_enumeration 2 (by decide) (by decide)).2 [3, 4] (by decide)
    (by decide)

-- ========== C3: length and non-alphabetic preservation ==========

/-- Output `u` has the input text's length and carries every non-alphabetic
character of the input unchanged at its original position. -/
def preservesNonAlpha (t u : List Char) : Prop :=
  u.length = t.length ∧
  ∀ (i : Nat) (c : Char), t[i]? = some c → isAsciiAlphabetic c = false →
    u[i]? = some c

theorem preservesNonAlpha_map {f : Char → Char}
    (hf : ∀ c, isAsciiAlphabetic c = false → f c = c) (t : List Char) :
    preservesNonAlpha t (t.map f) := by
  refine ⟨List.length_map t f, ?_⟩
  intro i c hi hna
  simp [List.getElem?_map, hi, hf c hna]

theorem preservesNonAlpha_trans {t u v : List Char}
    (h1 : preservesNonAlpha t u) (h2 : preservesNonAlpha u v) :
    preservesNonAlpha t v :=
  ⟨h2.1.trans h1.1, fun i c hi hna => h2.2 i c (h1.2 i c hi hna) hna⟩

theorem nonalpha_split {c : Char} (h : isAsciiAlphabetic c = false) :
    isAsciiLowercase c = false ∧ isAsciiUppercase c = false := by
  unfold isAsciiAlphabetic at h
  exact Bool.or_eq_false_iff.mp h

theorem decrypt_caesar_char_nonalpha {shift : Nat} {c : Char}
    (h : isAsciiAlphabetic c = false) : decrypt_caesar_char shift c = c := by
  obtain ⟨h1, h2⟩ := nonalpha_split h
  simp [decrypt_caesar_char, h1, h2]

theorem decrypt_atbash_char_nonalpha {c : Char}
    (h : isAsciiAlphabetic c = false) : decrypt_atbash_char c = c := by
  obtain ⟨h1, h2⟩ := nonalpha_split h
  simp [decrypt_atbash_char, h1, h2]

theorem decrypt_affine_char_nonalpha {a b : Nat} {c : Char}
    (h : isAsciiAlphabetic c = false) : decrypt_affine_char a b c = c := by
  obtain ⟨h1, h2⟩ := nonalpha_split h
  simp [decrypt_affine_char, h1, h2]

theorem decrypt_vigenere_go_preserves (key : List Nat) (t : List Char) :
    ∀ k : Nat, preservesNonAlpha t (decrypt_vigenere_go key k t) := by
  induction t with
  | nil => intro k; exact ⟨rfl, fun i c hi _ => by simp at hi⟩
  | cons c cs ih =>
    intro k
    by_cases hc : isAsciiAlphabetic c = true
    · simp only [decrypt_vigenere_go, hc, if_true]
      refine ⟨by simp [(ih (k + 1)).1], ?_⟩
      intro i c' hi hna
      cases i with
      | zero =>
        rw [List.getElem?_cons_zero] at hi
        cases hi
        rw [hc] at hna
        exact Bool.noConfusion hna
      | succ i =>
        rw [List.getElem?_cons_succ] at hi ⊢
        exact (ih (k + 1)).2 i c' hi hna
    · simp only [Bool.not_eq_true] at hc
      simp only [decrypt_vigenere_go, hc, Bool.false_eq_true, if_false]
      refine ⟨by simp [(ih k).1], ?_⟩
      intro i c' hi hna
      cases i with
      | zero => rw [List.getElem?_cons_zero] at hi ⊢; exact hi
      | succ i =>
        rw [List.getElem?_cons_succ] at hi ⊢
        exact (ih k).2 i c' hi hna

theorem decrypt_beaufort_go_preserves (key : List Nat) (t : List Char) :
    ∀ k : Nat, preservesNonAlpha t (decrypt_beaufort_go key k t) := by
  induction t with
  | nil => intro k; exact ⟨rfl, fun i c hi _ => by simp at hi⟩
  | cons c cs ih =>
    intro k
    by_cases hc : isAsciiAlphabetic c = true
    · simp only [decrypt_beaufort_go, hc, if_true]
      refine ⟨by simp [(ih (k + 1)).1], ?_⟩
      intro i c' hi hna
      cases i with
      | zero =>
        rw [List.getElem?_cons_zero] at hi
        cases hi
        rw [hc] at hna
        exact Bool.noConfusion hna
      | succ i =>
        rw [List.getElem?_cons_succ] at hi ⊢
        exact (ih (k + 1)).2 i c' hi hna
    · simp only [Bool.not_eq_true] at hc
      simp only [decrypt_beaufort_go, hc, Bool.false_eq_true, if_false]
      refine ⟨by simp [(ih k).1], ?_⟩
      intro i c' hi hna
      cases i with
      | zero => rw [List.getElem?_cons_zero] at hi ⊢; exact hi
      | succ i =>
        rw [List.getElem?_cons_succ] at hi ⊢
        exact (ih k).2 i c' hi hna

theorem railScatter_length : ∀ (order : List Nat) (cs res : List Char),
    (railScatter order cs res).length = res.length := by
  intro order
  induction order with
  | nil => intro cs res; rfl
  | cons pos rest ih =>
    intro cs res
    cases cs with
    | nil => rfl
    | cons c cs' =>
      simp only [railScatter, ih, List.length_set]

theorem decrypt_rail_fence_length (text : List Char) (rails : Nat) :
    (decrypt_rail_fence text rails).length = text.length := by
  unfold decrypt_rail_fence
  by_cases h : rails ≤ 1
  · rw [if_pos h]
  · rw [if_neg h]
    simp [railScatter_length]

theorem columnarScatter_length : ∀ (n : Nat) (ps : List Nat) (cs res : List Char),
    (columnarScatter n ps cs res).length = res.length := by
  intro n ps
  induction ps with
  | nil => intro cs res; rfl
  | cons pos rest ih =>
    intro cs res
    cases cs with
    | nil => exact ih [] res
    | cons c cs' =>
      unfold columnarScatter
      by_cases h : pos < n
      · rw [if_pos h, ih, List.length_set]
      · rw [if_neg h, ih]

theorem decrypt_columnar_transposition_length (text key : List Char)
    (hk : key ≠ []) :
    (decrypt_columnar_transposition text key).length = text.length := by
  unfold decrypt_columnar_transposition
  rw [columnarScatter_length, List.length_replicate]

/-- C3 amended: the per-letter ciphers — Caesar, ROT13, Atbash, Vigenère,
Beaufort, Affine and the Atbash+Vigenère hybrid — return a plaintext of the
same length as the input with every non-alphabetic character unchanged at
its original position; the transposition ciphers Rail Fence, Columnar
Transposition (with a non-empty key) and Reverse still preserve the length
(being permutations of the input) though not positions.  (Playfair, Polybius
Square and Bacon satisfy neither; see the counterexample.) -/
theorem per_letter_ciphers_preserve_nonalpha (text : List Char) (shift : Nat)
    (key : List Nat) (a b rails : Nat) (ckey : List Char) (hshift : shift < 26)
    (hk : key ≠ []) (hkey : ∀ s ∈ key, s < 26) (ha : a < 26)
    (hg : Nat.gcd a 26 = 1) (hb : b < 26) (hrails : 2 ≤ rails)
    (hckey : ckey ≠ []) :
    preservesNonAlpha text (decrypt_caesar text shift) ∧
    preservesNonAlpha text (decrypt_rot13 text) ∧
    preservesNonAlpha text (decrypt_atbash text) ∧
    preservesNonAlpha text (decrypt_vigenere text key) ∧
    preservesNonAlpha text (decrypt_beaufort text key) ∧
    preservesNonAlpha text (decrypt_affine text a b) ∧
    preservesNonAlpha text (decrypt_atbash_vigenere text key) ∧
    (decrypt_rail_fence text rails).length = text.length ∧
    (decrypt_columnar_transposition text ckey).length = text.length ∧
    (decrypt_reverse text).length = text.length := by
  refine ⟨preservesNonAlpha_map (fun c h => decrypt_caesar_char_nonalpha h) text,
    preservesNonAlpha_map (fun c h => decrypt_caesar_char_nonalpha h) text,
    preservesNonAlpha_map (fun c h => decrypt_atbash_char_nonalpha h) text,
    decrypt_vigenere_go_preserves key text 0,
    decrypt_beaufort_go_preserves key text 0,
    preservesNonAlpha_map (fun c h => decrypt_affine_char_nonalpha h) text,
    ?_, decrypt_rail_fence_length text rails,
    decrypt_columnar_transposition_length text ckey hckey,
    List.length_reverse text⟩
  exact preservesNonAlpha_trans
    (preservesNonAlpha_map (fun c h => decrypt_atbash_char_nonalpha h) text)
    (decrypt_vigenere_go_preserves key (decrypt_atbash text) 0)

/-- C3 witness: the amended theorem at concrete parameters on the text
`"a! b?"`. -/
theorem per_letter_ciphers_preserve_nonalpha_witness :
    preservesNonAlpha "a! b?".toList (decrypt_caesar "a! b?".toList 3) ∧
    preservesNonAlpha "a! b?".toList (decrypt_rot13 "a! b?".toList) ∧
    preservesNonAlpha "a! b?".toList (decrypt_atbash "a! b?".toList) ∧
    preservesNonAlpha "a! b?".toList (decrypt_vigenere "a! b?".toList [1, 2]) ∧
    preservesNonAlpha "a! b?".toList (decrypt_beaufort "a! b?".toList [1, 2]) ∧
    preservesNonAlpha "a! b?".toList (decrypt_affine "a! b?".toList 3 5) ∧
    preservesNonAlpha "a! b?".toList (decrypt_atbash_vigenere "a! b?".toList [1, 2]) ∧
    (decrypt_rail_fence "a! b?".toList 2).length = "a! b?".toList.length ∧
    (decrypt_columnar_transposition "a! b?".toList "ab".toList).length =
      "a! b?".toList.length ∧
    (decrypt_reverse "a! b?".toList).length = "a! b?".toList.length :=
  per_letter_ciphers_preserve_nonalpha "a! b?".toList 3 [1, 2] 3 5 2 "ab".toList
    (by decide) (by decide) (by decide) (by decide) (by decide) (by decide)
    (by decide) (by decide)

/-- C3 counterexample: the claim fails for the library as a whole.  Playfair,
Polybius Square and Bacon change the length (inputs of length 3, 2 and 5
produce outputs of length 2, 1 and 1), and Reverse, Rail Fence and Columnar
Transposition move non-alphabetic characters away from their original
positions (`"a!"` reverses to `"!a"`; `"a!b"` under 2 rails, or under a
2-column key `"ab"`, becomes `"ab!"`). -/
theorem cipher_transform_claim_cex :
    (decrypt_playfair "abc".toList "key".toList).length = 2 ∧
    (decrypt_polybius_square "11".toList).length = 1 ∧
    (decrypt_bacon "aaaaa".toList).length = 1 ∧
    decrypt_reverse "a!".toList = "!a".toList ∧
    decrypt_rail_fence "a!b".toList 2 = "ab!".toList ∧
    decrypt_columnar_transposition "a!b".toList "ab".toList = "ab!".toList := by
  decide

-- ========== C10: Playfair output shape ==========

theorem contains_iff_mem {l : List Char} {c : Char} :
    l.contains c = true ↔ c ∈ l := by
  simp [List.contains]

theorem alphabetChars_mem_iff (c : Char) :
    c ∈ alphabetChars ↔ 97 ≤ c.toNat ∧ c.toNat ≤ 122 := by
  constructor
  · intro h
    simp only [alphabetChars, List.mem_map, List.mem_range, toNat_a] at h
    obtain ⟨i, hi, rfl⟩ := h
    rw [(lowerChar_facts i hi).1]
    omega
  · rintro ⟨h1, h2⟩
    simp only [alphabetChars, List.mem_map, List.mem_range, toNat_a]
    exact ⟨c.toNat - 97, by omega, by rw [Nat.add_sub_cancel' h1, Char.ofNat_toNat]⟩

theorem alphabetChars_nodup : alphabetChars.Nodup := by decide

theorem alphabetChars_lower : ∀ c ∈ alphabetChars, isAsciiLowercase c = true := by
  decide

theorem dedupAlphaGo_mem : ∀ (l seen : List Char) (c : Char),
    c ∈ dedupAlphaGo seen l → c ∈ l ∧ isAsciiAlphabetic c = true := by
  intro l
  induction l with
  | nil => intro seen c h; simp [dedupAlphaGo] at h
  | cons x xs ih =>
    intro seen c h
    unfold dedupAlphaGo at h
    by_cases hx : (isAsciiAlphabetic x && !(seen.contains x)) = true
    · rw [if_pos hx] at h
      cases List.mem_cons.mp h with
      | inl he =>
        subst he
        exact ⟨List.mem_cons_self _ _, (Bool.and_eq_true _ _ |>.mp hx).1⟩
      | inr hm =>
        have := ih (x :: seen) c hm
        exact ⟨List.mem_cons_of_mem _ this.1, this.2⟩
    · rw [if_neg hx] at h
      have := ih seen c h
      exact ⟨List.mem_cons_of_mem _ this.1, this.2⟩

theorem dedupAlphaGo_not_mem_seen : ∀ (l seen : List Char) (c : Char),
    c ∈ dedupAlphaGo seen l → c ∉ seen := by
  intro l
  induction l with
  | nil => intro seen c h; simp [dedupAlphaGo] at h
  | cons x xs ih =>
    intro seen c h
    unfold dedupAlphaGo at h
    by_cases hx : (isAsciiAlphabetic x && !(seen.contains x)) = true
    · rw [if_pos hx] at h
      cases List.mem_cons.mp h with
      | inl he =>
        subst he
        have := (Bool.and_eq_true _ _ |>.mp hx).2
        rw [Bool.not_eq_true'] at this
        intro hmem
        rw [← contains_iff_mem (l := seen) (c := c)] at hmem
        rw [this] at hmem
        exact Bool.noConfusion hmem
      | inr hm =>
        intro hmem
        exact ih (x :: seen) c hm (List.mem_cons_of_mem _ hmem)
    · rw [if_neg hx] at h
      exact ih seen c h

theorem dedupAlphaGo_nodup : ∀ l seen : List Char, (dedupAlphaGo seen l).Nodup := by
  intro l
  induction l with
  | nil => intro seen; simp [dedupAlphaGo]
  | cons x xs ih =>
    intro seen
    unfold dedupAlphaGo
    by_cases hx : (isAsciiAlphabetic x && !(seen.contains x)) = true
    · rw [if_pos hx]
      refine List.nodup_cons.mpr ⟨?_, ih (x :: seen)⟩
      intro hmem
      exact dedupAlphaGo_not_mem_seen xs (x :: seen) x hmem (List.mem_cons_self _ _)
    · rw [if_neg hx]
      exact ih seen

theorem toAsciiLowercase_not_upper (c : Char) :
    isAsciiUppercase (toAsciiLowercase c) = false := by
  unfold toAsciiLowercase
  by_cases h : isAsciiUppercase c = true
  · rw [if_pos h]
    obtain ⟨h1, h2⟩ := (isAsciiUppercase_iff c).mp h
    have he : c.toNat + 32 = 97 + (c.toNat - 65) := by omega
    rw [he]
    exact (lowerChar_facts _ (by omega)).2.2.1
  · rw [if_neg h]
    exact Bool.not_eq_true _ |>.mp h

/-- The `key_lower` list of `decrypt_playfair` (line 285): lowercased key
with `'j'` replaced by `'i'`. -/
def playfair_key_lower (key : List Char) : List Char :=
  (key.map toAsciiLowercase).map fun c => if c = 'j' then 'i' else c

theorem playfair_key_lower_props {key : List Char} {c : Char}
    (h : c ∈ playfair_key_lower key) :
    c ≠ 'j' ∧ isAsciiUppercase c = false := by
  simp only [playfair_key_lower, List.mem_map] at h
  obtain ⟨x, ⟨y, hy, rfl⟩, rfl⟩ := h
  by_cases hj : toAsciiLowercase y = 'j'
  · rw [if_pos hj]
    exact ⟨by decide, by decide⟩
  · rw [if_neg hj]
    exact ⟨hj, toAsciiLowercase_not_upper y⟩

theorem playfair_kd_props (key : List Char) :
    ∀ c ∈ dedupAlphaGo [] (playfair_key_lower key),
      isAsciiLowercase c = true ∧ c ≠ 'j' := by
  intro c hc
  have h1 := dedupAlphaGo_mem _ [] c hc
  have h2 := playfair_key_lower_props h1.1
  have hl : isAsciiLowercase c = true := by
    have := h1.2
    unfold isAsciiAlphabetic at this
    rw [h2.2, Bool.or_false] at this
    exact this
  exact ⟨hl, h2.1⟩

theorem playfair_keytable_eq (key : List Char) :
    playfair_keytable key =
      dedupAlphaGo [] (playfair_key_lower key) ++
        alphabetChars.filter
          (fun c => c ≠ 'j' && !((dedupAlphaGo [] (playfair_key_lower key)).contains c)) :=
  rfl

theorem playfair_keytable_mem_iff (key : List Char) (c : Char) :
    c ∈ playfair_keytable key ↔ c ∈ alphabetChars ∧ c ≠ 'j' := by
  rw [playfair_keytable_eq, List.mem_append, List.mem_filter]
  constructor
  · rintro (hkd | ⟨ha, hf⟩)
    · have hp := playfair_kd_props key c hkd
      exact ⟨(alphabetChars_mem_iff c).mpr ((isAsciiLowercase_iff c).mp hp.1), hp.2⟩
    · rw [Bool.and_eq_true, decide_eq_true_eq] at hf
      exact ⟨ha, hf.1⟩
  · rintro ⟨ha, hj⟩
    by_cases hkd : c ∈ dedupAlphaGo [] (playfair_key_lower key)
    · exact Or.inl hkd
    · refine Or.inr ⟨ha, ?_⟩
      rw [Bool.and_eq_true, decide_eq_true_eq, Bool.not_eq_true']
      refine ⟨hj, ?_⟩
      rw [← Bool.not_eq_true]
      intro hcon
      exact hkd (contains_iff_mem.mp hcon)

theorem playfair_keytable_nodup (key : List Char) :
    (playfair_keytable key).Nodup := by
  rw [playfair_keytable_eq]
  refine List.Nodup.append (dedupAlphaGo_nodup _ []) (alphabetChars_nodup.filter _) ?_
  intro a ha hf
  rw [List.mem_filter, Bool.and_eq_true, Bool.not_eq_true'] at hf
  have : a ∈ dedupAlphaGo [] (playfair_key_lower key) → False := by
    intro hm
    rw [← contains_iff_mem (l := dedupAlphaGo [] (playfair_key_lower key))] at hm
    rw [hf.2.2] at hm
    exact Bool.noConfusion hm
  exact this ha

theorem playfair_keytable_length (key : List Char) :
    (playfair_keytable key).length = 25 := by
  have hperm : List.Perm (playfair_keytable key)
      (alphabetChars.filter (fun c => c ≠ 'j')) := by
    rw [List.perm_ext_iff_of_nodup (playfair_keytable_nodup key)
      (alphabetChars_nodup.filter _)]
    intro c
    rw [playfair_keytable_mem_iff, List.mem_filter, decide_eq_true_eq]
  rw [hperm.length_eq]
  decide

theorem getD_mem_char {l : List Char} {n : Nat} {d : Char} (h : n < l.length) :
    l.getD n d ∈ l := by
  rw [List.getD_eq_getElem?_getD, List.getElem?_eq_getElem h]
  exact List.getElem_mem h

theorem findIdxD_lt {l : List Char} {p : Char → Bool} (hl : 0 < l.length) :
    (l.findIdx? p).getD 0 < l.length := by
  cases h : l.findIdx? p with
  | none => simpa using hl
  | some i =>
    have := (List.findIdx?_eq_some_iff_findIdx_eq.mp h).1
    simpa using this

theorem playfair_pairs_mem (kt : List Char) (h25 : kt.length = 25) :
    ∀ l : List Char, ∀ c ∈ playfair_pairs kt l, c ∈ kt
  | [] => by intro c hc; simp [playfair_pairs] at hc
  | [c1] => by intro c hc; simp [playfair_pairs] at hc
  | c1 :: c2 :: rest => by
    intro c hc
    unfold playfair_pairs at hc
    rw [List.mem_append] at hc
    cases hc with
    | inr h => exact playfair_pairs_mem kt h25 rest c h
    | inl h =>
      have hp : 0 < kt.length := by omega
      have h1 : (kt.findIdx? (· = c1)).getD 0 < kt.length := findIdxD_lt hp
      have h2 : (kt.findIdx? (· = c2)).getD 0 < kt.length := findIdxD_lt hp
      rw [h25] at h1 h2
      split_ifs at h <;>
        rcases List.mem_cons.mp h with rfl | h' <;>
        first
          | exact getD_mem_char (by omega)
          | (rcases List.mem_cons.mp h' with rfl | h'' <;>
              first
                | exact getD_mem_char (by omega)
                | simp at h'')

theorem playfair_pairs_length (kt : List Char) :
    ∀ l : List Char, (playfair_pairs kt l).length = 2 * (l.length / 2)
  | [] => by simp [playfair_pairs]
  | [c1] => by simp [playfair_pairs]
  | c1 :: c2 :: rest => by
    unfold playfair_pairs
    rw [List.length_append, playfair_pairs_length kt rest]
    split_ifs <;> simp only [List.length_cons, List.length_nil] <;> omega

/-- C10: for every input text and key, `decrypt_playfair` returns only
lowercase letters other than `'j'`, and its length is the number of
alphabetic characters of the input rounded down to the nearest even number
(an odd trailing character is silently dropped by the digraph loop). -/
theorem decrypt_playfair_shape (text key : List Char) :
    (decrypt_playfair text key).length =
      2 * ((text.filter isAsciiAlphabetic).length / 2) ∧
    ∀ c ∈ decrypt_playfair text key, isAsciiLowercase c = true ∧ c ≠ 'j' := by
  constructor
  · unfold decrypt_playfair
    rw [playfair_pairs_length]
    rw [List.length_map]
  · intro c hc
    unfold decrypt_playfair at hc
    have hkt : c ∈ playfair_keytable key :=
      playfair_pairs_mem _ (playfair_keytable_length key) _ c hc
    have hm := (playfair_keytable_mem_iff key c).mp hkt
    exact ⟨alphabetChars_lower c hm.1, hm.2⟩
